import Mathlib

/-! # ntca value types: ErrorEvent and EncryptionSecret

A shallow embedding of

* `groups/ntc/ntca/ntca_errorevent.cpp`   (`ErrorEvent::equals`, `ErrorEvent::less`,
  `ErrorEvent::print`)
* `groups/ntc/ntca/ntca_encryptionsecret.h` (`EncryptionSecret`, `hashAppend`)

followed by the properties proved about them.

The attribute types of `ErrorEvent` (`ntca::ErrorEventType::Value` and
`ntca::ErrorContext`) are declared in other components, so the embedding takes
the two types and their `==` and `<` operators as arguments.
-/

namespace Ntca

/-! ## Order vocabulary for Boolean comparison operators -/

/-- A Boolean `<` that is a strict total (linear) order. -/
structure IsStrictTotal {α : Type} (lt : α → α → Bool) : Prop where
  irrefl : ∀ x, lt x x = false
  trans : ∀ x y z, lt x y = true → lt y z = true → lt x z = true
  total : ∀ x y, lt x y = true ∨ x = y ∨ lt y x = true

/-- A Boolean `<` that is a strict weak order: irreflexive, asymmetric,
transitive, and with transitive incomparability. -/
structure IsStrictWeak {α : Type} (lt : α → α → Bool) : Prop where
  irrefl : ∀ x, lt x x = false
  asymm : ∀ x y, lt x y = true → lt y x = false
  trans : ∀ x y z, lt x y = true → lt y z = true → lt x z = true
  incomp_trans : ∀ x y z, lt x y = false → lt y x = false →
    lt y z = false → lt z y = false → lt x z = false ∧ lt z x = false

/-- A Boolean `==` that decides equality of values. -/
def EqMatches {α : Type} (eq : α → α → Bool) : Prop :=
  ∀ x y, eq x y = true ↔ x = y

/-! ## ErrorEvent (ntca_errorevent.cpp) -/

/-- The two attributes of `ntca::ErrorEvent`: `d_type` and `d_context`. -/
structure ErrorEvent (T C : Type) where
  d_type : T
  d_context : C

namespace ErrorEvent

variable {T C : Type}

/-- The member function `ErrorEvent::equals`:
`return (d_type == other.d_type && d_context == other.d_context);` -/
def equals (teq : T → T → Bool) (ceq : C → C → Bool)
    (self other : ErrorEvent T C) : Bool :=
  teq self.d_type other.d_type && ceq self.d_context other.d_context

/-- The member function `ErrorEvent::less`:
```
if (d_type < other.d_type) { return true; }
if (other.d_type < d_type) { return false; }
return d_context < other.d_context;
```
-/
def less (tlt : T → T → Bool) (clt : C → C → Bool)
    (self other : ErrorEvent T C) : Bool :=
  if tlt self.d_type other.d_type then true
  else if tlt other.d_type self.d_type then false
  else clt self.d_context other.d_context

end ErrorEvent

/-! ## EncryptionSecret (ntca_encryptionsecret.h)

The header declares the class and defines `hashAppend`; the member functions
are defined in a translation unit that is not part of the sources at hand, so
they are modelled from their documented contracts.

A `const void*` argument is represented by the bytes that can be read starting
at that address; the address itself is not represented. -/

/-- An unsigned 8-bit byte, `bsl::uint8_t`. -/
abbrev Byte := Fin 256

/-- The `size` bytes of the memory region that starts at `data`. -/
def readBytes (data : List Byte) (size : Nat) : List Byte :=
  data.take size

/-- The memory region `destination` after `source` has been written at its
start: the bytes behind the written ones keep their value. -/
def writeBytes (destination source : List Byte) : List Byte :=
  source ++ destination.drop source.length

/-- The conversion of a signed byte `bsl::int8_t` to `bsl::uint8_t`: the
unsigned byte with the same 8-bit pattern. -/
def toUint8 (value : Int) : Byte :=
  ⟨(value % 256).toNat, by omega⟩

/-- The class `ntca::EncryptionSecret`: its only member is
`bsl::vector<bsl::uint8_t> d_data`. -/
structure EncryptionSecret where
  d_data : List Byte
deriving DecidableEq

/-- What a call of `EncryptionSecret::copy` leaves behind: the secret, the
destination region, and the returned number of bytes. -/
structure CopyResult where
  self : EncryptionSecret
  destination : List Byte
  count : Nat
deriving DecidableEq

/-- Byte-for-byte comparison of two byte sequences: true when they have
identical length and content. -/
def bytesEqual : List Byte → List Byte → Bool
  | [], [] => true
  | x :: xs, y :: ys => decide (x = y) && bytesEqual xs ys
  | _, _ => false

/-- Lexicographic comparison of two byte sequences: the bytes are compared one
by one over the shorter length, and when all compared bytes are equal the
shorter sequence is the smaller one. -/
def bytesLess : List Byte → List Byte → Bool
  | [], [] => false
  | [], _ :: _ => true
  | _ :: _, [] => false
  | x :: xs, y :: ys =>
    if x < y then true
    else if y < x then false
    else bytesLess xs ys

namespace EncryptionSecret

/-- Modelled from the spec: the default constructor, whose definition is not
in the sources. "created empty". -/
def new : EncryptionSecret := ⟨[]⟩

/-- Modelled from the spec: `EncryptionSecret::append(bsl::int8_t)`, whose
definition is not in the sources. "appends one signed or one unsigned byte to
the end of the sequence, preserving existing content and order". -/
def appendInt8 (self : EncryptionSecret) (value : Int) : EncryptionSecret :=
  ⟨self.d_data ++ [toUint8 value]⟩

/-- Modelled from the spec: `EncryptionSecret::append(bsl::uint8_t)`, whose
definition is not in the sources. "appends one signed or one unsigned byte to
the end of the sequence, preserving existing content and order". -/
def appendUint8 (self : EncryptionSecret) (value : Byte) : EncryptionSecret :=
  ⟨self.d_data ++ [value]⟩

/-- Modelled from the spec: `EncryptionSecret::append(const void*, size_t)`,
whose definition is not in the sources. "appends `size` bytes read from the
given memory region, in order, to the end of the sequence". -/
def append (self : EncryptionSecret) (data : List Byte) (size : Nat) :
    EncryptionSecret :=
  ⟨self.d_data ++ readBytes data size⟩

/-- Modelled from the spec: `EncryptionSecret::data`, whose definition is not
in the sources. "returns a read-only view over the full byte sequence". -/
def data (self : EncryptionSecret) : List Byte :=
  self.d_data

/-- Modelled from the spec: `EncryptionSecret::size`, whose definition is not
in the sources. "report current length". -/
def size (self : EncryptionSecret) : Nat :=
  self.d_data.length

/-- Modelled from the spec: `EncryptionSecret::copy`, whose definition is not
in the sources. "copies `min(size(), capacity)` bytes from the front of the
stored sequence into `destination`, and returns the number of bytes actually
copied"; "a read-only operation; it never resets or mutates source state". -/
def copy (self : EncryptionSecret) (destination : List Byte) (capacity : Nat) :
    CopyResult :=
  { self := self
    destination :=
      writeBytes destination (self.d_data.take (min self.size capacity))
    count := min self.size capacity }

/-- Modelled from the spec: `EncryptionSecret::equals`, whose definition is not
in the sources. "true iff byte sequences are identical in length and content,
byte-for-byte". -/
def equals (self other : EncryptionSecret) : Bool :=
  bytesEqual self.d_data other.d_data

/-- Modelled from the spec: `EncryptionSecret::reset`, whose definition is not
in the sources. "clears content to the empty/default state"; the header
documents it as "Reset the value of this object to its value upon default
construction". -/
def reset (_self : EncryptionSecret) : EncryptionSecret :=
  ⟨[]⟩

/-- Modelled from the spec: `EncryptionSecret::empty`, whose definition is not
in the sources. "report ... whether length is zero". -/
def empty (self : EncryptionSecret) : Bool :=
  decide (self.d_data.length = 0)

/-- Modelled from the spec: `EncryptionSecret::less`, whose definition is not
in the sources. "true iff this sequence is lexicographically less than
`other`'s, compared byte-by-byte over the shorter-length prefix, with the
shorter sequence considered less when all compared bytes are equal". -/
def less (self other : EncryptionSecret) : Bool :=
  bytesLess self.d_data other.d_data

end EncryptionSecret

/-- The function template
`hashAppend(HASH_ALGORITHM& algorithm, const EncryptionSecret& value)`:
`algorithm(value.data(), value.size());`
The hash algorithm is a state `H` with its call operator
`operator()(const void*, size_t)`. -/
def hashAppend {H : Type} (algorithm : H → List Byte → Nat → H) (state : H)
    (value : EncryptionSecret) : H :=
  algorithm state value.data value.size

/-- A hash algorithm that consumes a byte stream: its call operator folds the
`size` bytes of the region into the state one after the other with `step`, and
nothing else of the call reaches the state. -/
def streamAlgorithm {H : Type} (step : H → Byte → H) (state : H)
    (data : List Byte) (size : Nat) : H :=
  (readBytes data size).foldl step state

/-- The byte-stream algorithm whose state is the sequence of bytes it has been
fed so far. -/
def recordBytes (fed : List Byte) (data : List Byte) (size : Nat) : List Byte :=
  streamAlgorithm (fun acc b => acc ++ [b]) fed data size

/-- One call of an `append` overload. -/
inductive AppendCall where
  | int8 (value : Int)
  | uint8 (value : Byte)
  | block (data : List Byte) (size : Nat)

/-- The bytes a call of `append` is given. -/
def AppendCall.bytes : AppendCall → List Byte
  | .int8 value => [toUint8 value]
  | .uint8 value => [value]
  | .block data size => readBytes data size

/-- The secret after one call of `append`. -/
def AppendCall.run (self : EncryptionSecret) : AppendCall → EncryptionSecret
  | .int8 value => self.appendInt8 value
  | .uint8 value => self.appendUint8 value
  | .block data size => self.append data size

/-- The secret after a sequence of calls of `append`, in call order. -/
def runAppends (self : EncryptionSecret) (calls : List AppendCall) :
    EncryptionSecret :=
  calls.foldl AppendCall.run self

/-- All bytes given to a sequence of calls of `append`, in call order. -/
def appendedBytes : List AppendCall → List Byte
  | [] => []
  | call :: calls => call.bytes ++ appendedBytes calls

/-! ## Output streams and the printer

`bsl::ostream` and `bslim::Printer` belong to the BDE and C++ standard
libraries, not to this repository. A stream is represented by what printing
can observe of it, the text it has taken and its error bits, and
the printer is an argument of the embedding: the text each of its calls
inserts into the stream. -/

/-- A `bsl::ostream` as far as printing observes it: the characters written to
it so far, and its error state, the bits `badbit`, `failbit` and `eofbit` of
`ios_base::iostate`. -/
structure OStream where
  written : List Char
  badbit : Bool
  failbit : Bool
  eofbit : Bool
deriving DecidableEq

/-- True when the stream is in a failed state: one of its error bits is set,
so that `good()` is false and the stream takes no output. -/
def OStream.failed (stream : OStream) : Bool :=
  stream.badbit || stream.failbit || stream.eofbit

/-- An insertion `stream << text`. It starts with the sentry of the stream
library (`basic_ostream::sentry` in `bits/ostream.tcc`):
```
if (os.good()) ok = true;
else if (os.bad()) os.setstate(ios_base::failbit);
```
A stream whose state is good takes the text at its end. Any other stream takes
no output and keeps its error bits, except that `failbit` is set when `badbit`
is set. -/
def OStream.insert (stream : OStream) (text : List Char) : OStream :=
  if stream.failed then
    if stream.badbit then { stream with failbit := true } else stream
  else { stream with written := stream.written ++ text }

/-- The text a stream has taken between the state `before` and the later state
`after`. -/
def textWritten (before after : OStream) : List Char :=
  after.written.drop before.written.length

/-- True when a text ends in a newline that no other newline precedes
directly. -/
def endsInOneNewline (text : List Char) : Bool :=
  match text.reverse with
  | [] => false
  | c :: rest =>
    decide (c = '\n') &&
      (match rest with
       | [] => true
       | d :: _ => decide (d ≠ '\n'))

/-- The class `bslim::Printer` constructed with `(&stream, level,
spacesPerLevel)`, given by the text that each of its calls inserts:
`startText level spacesPerLevel` for `start()`,
`attributeText level spacesPerLevel name value` for
`printAttribute(name, value)`, and `endText level spacesPerLevel` for `end()`.
The value of an attribute is passed as its rendering: `value l s` is the text
that printing the value at level `l` with `s` spaces per level inserts.
Each call makes at least one insertion, and its insertions are taken together
as one: on a stream that takes output they concatenate, and on any other
stream a repeated insertion changes nothing further. -/
structure Printer where
  startText : Int → Int → List Char
  attributeText : Int → Int → String → (Int → Int → List Char) → List Char
  endText : Int → Int → List Char

namespace Printer

/-- The call `printer.start()`. -/
def start (printer : Printer) (stream : OStream) (level spacesPerLevel : Int) :
    OStream :=
  stream.insert (printer.startText level spacesPerLevel)

/-- The call `printer.printAttribute(name, value)`. -/
def printAttribute (printer : Printer) (stream : OStream)
    (level spacesPerLevel : Int) (name : String)
    (value : Int → Int → List Char) : OStream :=
  stream.insert (printer.attributeText level spacesPerLevel name value)

/-- The call `printer.end()`. -/
def finish (printer : Printer) (stream : OStream) (level spacesPerLevel : Int) :
    OStream :=
  stream.insert (printer.endText level spacesPerLevel)

/-- The line-break behaviour of a printer: with a negative `spacesPerLevel`
none of its calls inserts a newline of its own, and with a non-negative one
`end()` inserts a text that ends in a closing character followed by one
newline. -/
structure HonoursLineBreaks (printer : Printer) : Prop where
  start_single : ∀ level spl : Int, spl < 0 →
    '\n' ∉ printer.startText level spl
  attribute_single : ∀ (level spl : Int) (name : String)
    (value : Int → Int → List Char), spl < 0 → '\n' ∉ name.toList →
    (∀ l : Int, '\n' ∉ value l spl) →
    '\n' ∉ printer.attributeText level spl name value
  end_single : ∀ level spl : Int, spl < 0 →
    '\n' ∉ printer.endText level spl
  end_multi : ∀ level spl : Int, 0 ≤ spl →
    ∃ (body : List Char) (c : Char),
      c ≠ '\n' ∧ printer.endText level spl = body ++ [c, '\n']

end Printer

namespace ErrorEvent

variable {T C : Type}

/-- The member function `ErrorEvent::print`:
```
bslim::Printer printer(&stream, level, spacesPerLevel);
printer.start();
printer.printAttribute("type", d_type);
printer.printAttribute("context", d_context);
printer.end();
return stream;
```
The renderings of the two attribute types are arguments. -/
def print (printer : Printer) (renderType : T → Int → Int → List Char)
    (renderContext : C → Int → Int → List Char) (self : ErrorEvent T C)
    (stream : OStream) (level spacesPerLevel : Int) : OStream :=
  let stream := printer.start stream level spacesPerLevel
  let stream := printer.printAttribute stream level spacesPerLevel "type"
    (renderType self.d_type)
  let stream := printer.printAttribute stream level spacesPerLevel "context"
    (renderContext self.d_context)
  printer.finish stream level spacesPerLevel

end ErrorEvent

/-! ## Concrete operators used to instantiate the theorems -/

/-- The `<` of an integral discriminant. -/
def natLt (a b : Nat) : Bool := decide (a < b)

/-- The `==` of an integral discriminant. -/
def natEq (a b : Nat) : Bool := decide (a = b)

/-- A hash algorithm over the natural numbers: each byte read from the region
is folded into the state. -/
def foldHash (state : Nat) (data : List Byte) (size : Nat) : Nat :=
  (readBytes data size).foldl (fun acc b => (acc * 31 + b.val) % 65521) state

/-- A run of `n` spaces, none for a negative `n`. -/
def spaces (n : Int) : List Char :=
  List.replicate n.toNat ' '

/-- A printer with a bracketed layout: one line with single spaces for a
negative `spacesPerLevel`, otherwise one indented line per attribute and a
closing bracket on a line of its own. -/
def blockPrinter : Printer where
  startText level spl :=
    (if level < 0 then [] else spaces (|spl| * level)) ++ ['['] ++
      (if 0 ≤ spl then ['\n'] else [])
  attributeText level spl name value :=
    (if spl < 0 then [' '] else spaces (spl * (|level| + 1))) ++
      name.toList ++ [' ', '=', ' '] ++ value (-(|level| + 1)) spl
  endText level spl :=
    if 0 ≤ spl then spaces (spl * |level|) ++ [']', '\n'] else [' ', ']']

/-- The rendering of an integral value: its decimal digits, followed by a
newline unless `spacesPerLevel` is negative. -/
def renderNat (value : Nat) (_level spacesPerLevel : Int) : List Char :=
  Nat.toDigits 10 value ++ (if 0 ≤ spacesPerLevel then ['\n'] else [])

/-! ## Facts about the order vocabulary -/

theorem IsStrictTotal.asymm {α : Type} {lt : α → α → Bool} (h : IsStrictTotal lt)
    (x y : α) (hxy : lt x y = true) : lt y x = false := by
  cases hyx : lt y x with
  | false => rfl
  | true =>
    have hxx := h.trans x y x hxy hyx
    rw [h.irrefl x] at hxx
    cases hxx

theorem IsStrictWeak.lt_of_lt_of_incomp {α : Type} {lt : α → α → Bool}
    (h : IsStrictWeak lt) {x y z : α} (hxy : lt x y = true)
    (hyz : lt y z = false) (hzy : lt z y = false) : lt x z = true := by
  cases hxz : lt x z with
  | true => rfl
  | false =>
    cases hzx : lt z x with
    | true =>
      have hc := h.trans z x y hzx hxy
      rw [hzy] at hc
      cases hc
    | false =>
      have hc := (h.incomp_trans x z y hxz hzx hzy hyz).1
      rw [hxy] at hc
      cases hc

theorem IsStrictWeak.lt_of_incomp_of_lt {α : Type} {lt : α → α → Bool}
    (h : IsStrictWeak lt) {x y z : α} (hxy : lt x y = false)
    (hyx : lt y x = false) (hyz : lt y z = true) : lt x z = true := by
  cases hxz : lt x z with
  | true => rfl
  | false =>
    cases hzx : lt z x with
    | true =>
      have hc := h.trans y z x hyz hzx
      rw [hyx] at hc
      cases hc
    | false =>
      have hc := (h.incomp_trans y x z hyx hxy hxz hzx).1
      rw [hyz] at hc
      cases hc

theorem natLt_isStrictTotal : IsStrictTotal natLt :=
  ⟨by intro x; simp [natLt],
   by intro x y z; simp only [natLt, decide_eq_true_eq]; omega,
   by intro x y; simp only [natLt, decide_eq_true_eq]; omega⟩

theorem natLt_isStrictWeak : IsStrictWeak natLt :=
  ⟨by intro x; simp [natLt],
   by intro x y; simp only [natLt, decide_eq_true_eq, decide_eq_false_iff_not]; omega,
   by intro x y z; simp only [natLt, decide_eq_true_eq]; omega,
   by intro x y z; simp only [natLt, decide_eq_false_iff_not]; omega⟩

theorem natEq_matches : EqMatches natEq := by
  intro x y
  simp [natEq]

/-! ## Properties of ErrorEvent -/

namespace ErrorEvent

variable {T C : Type}

/-- C1. `ErrorEvent::less` is the lexicographic order on (type, context):
when `<` on the type is a strict total order, events of different type compare
as their types do, and events of equal type compare as their contexts do. -/
theorem less_lexicographic (tlt : T → T → Bool) (clt : C → C → Bool)
    (hT : IsStrictTotal tlt) (a b : ErrorEvent T C) :
    (a.d_type ≠ b.d_type → less tlt clt a b = tlt a.d_type b.d_type) ∧
    (a.d_type = b.d_type → less tlt clt a b = clt a.d_context b.d_context) := by
  refine ⟨fun hne => ?_, fun heq => ?_⟩
  · unfold less
    cases hab : tlt a.d_type b.d_type with
    | true => simp
    | false =>
      rcases hT.total a.d_type b.d_type with h | h | h
      · rw [hab] at h; cases h
      · exact absurd h hne
      · simp [h]
  · unfold less
    rw [heq]
    simp [hT.irrefl]

/-- Instance of C1 on integral attributes: (1, 9) against (2, 0). -/
theorem less_lexicographic_witness :
    IsStrictTotal natLt ∧
    ((1 : Nat) ≠ 2 → less natLt natLt ⟨1, 9⟩ ⟨2, 0⟩ = natLt 1 2) ∧
    ((1 : Nat) = 2 → less natLt natLt ⟨1, 9⟩ ⟨2, 0⟩ = natLt 9 0) :=
  ⟨natLt_isStrictTotal,
   less_lexicographic natLt natLt natLt_isStrictTotal ⟨1, 9⟩ ⟨2, 0⟩⟩

/-- C2. `ErrorEvent::less` is a strict weak ordering whenever `<` on the type
and `<` on the context are: it is irreflexive, asymmetric and transitive. -/
theorem less_strict_weak (tlt : T → T → Bool) (clt : C → C → Bool)
    (hT : IsStrictWeak tlt) (hC : IsStrictWeak clt) (a b c : ErrorEvent T C) :
    less tlt clt a a = false ∧
    (less tlt clt a b = true → less tlt clt b a = false) ∧
    (less tlt clt a b = true → less tlt clt b c = true →
      less tlt clt a c = true) := by
  refine ⟨?_, ?_, ?_⟩
  · simp [less, hT.irrefl, hC.irrefl]
  · unfold less
    cases hab : tlt a.d_type b.d_type with
    | true => simp [hT.asymm _ _ hab]
    | false =>
      cases hba : tlt b.d_type a.d_type with
      | true => simp
      | false =>
        simp only [Bool.false_eq_true, if_false]
        exact hC.asymm _ _
  · unfold less
    cases hab : tlt a.d_type b.d_type with
    | true =>
      cases hbc : tlt b.d_type c.d_type with
      | true => simp [hT.trans _ _ _ hab hbc]
      | false =>
        cases hcb : tlt c.d_type b.d_type with
        | true => simp
        | false => simp [hT.lt_of_lt_of_incomp hab hbc hcb]
    | false =>
      cases hba : tlt b.d_type a.d_type with
      | true => simp
      | false =>
        cases hbc : tlt b.d_type c.d_type with
        | true => simp [hT.lt_of_incomp_of_lt hab hba hbc]
        | false =>
          cases hcb : tlt c.d_type b.d_type with
          | true => simp
          | false =>
            have hac := hT.incomp_trans _ _ _ hab hba hbc hcb
            simp only [Bool.false_eq_true, if_false, hac.1, hac.2]
            exact hC.trans _ _ _

/-- Instance of C2 on integral attributes: (1,5), (1,7), (2,0). -/
theorem less_strict_weak_witness :
    IsStrictWeak natLt ∧
    less natLt natLt (⟨1, 5⟩ : ErrorEvent Nat Nat) ⟨1, 5⟩ = false ∧
    (less natLt natLt (⟨1, 5⟩ : ErrorEvent Nat Nat) ⟨1, 7⟩ = true →
      less natLt natLt (⟨1, 7⟩ : ErrorEvent Nat Nat) ⟨1, 5⟩ = false) ∧
    (less natLt natLt (⟨1, 5⟩ : ErrorEvent Nat Nat) ⟨1, 7⟩ = true →
      less natLt natLt (⟨1, 7⟩ : ErrorEvent Nat Nat) ⟨2, 0⟩ = true →
      less natLt natLt (⟨1, 5⟩ : ErrorEvent Nat Nat) ⟨2, 0⟩ = true) :=
  ⟨natLt_isStrictWeak,
   less_strict_weak natLt natLt natLt_isStrictWeak natLt_isStrictWeak
     ⟨1, 5⟩ ⟨1, 7⟩ ⟨2, 0⟩⟩

/-- C3. `ErrorEvent::equals` is true exactly when `==` holds on both the type
and the context; a difference in either attribute alone makes it false. -/
theorem equals_iff (teq : T → T → Bool) (ceq : C → C → Bool)
    (a b : ErrorEvent T C) :
    (equals teq ceq a b = true ↔
      teq a.d_type b.d_type = true ∧ ceq a.d_context b.d_context = true) ∧
    (equals teq ceq a b = false ↔
      teq a.d_type b.d_type = false ∨ ceq a.d_context b.d_context = false) := by
  unfold equals
  cases teq a.d_type b.d_type <;> cases ceq a.d_context b.d_context <;> simp

/-- C4. `equals` and `less` are consistent and together total: when type and
context are linearly ordered by `<` and `==` decides equality, exactly one of
`a.less(b)`, `a.equals(b)`, `b.less(a)` holds. -/
theorem trichotomy (teq tlt : T → T → Bool) (ceq clt : C → C → Bool)
    (hT : IsStrictTotal tlt) (hC : IsStrictTotal clt)
    (hTe : EqMatches teq) (hCe : EqMatches ceq) (a b : ErrorEvent T C) :
    (less tlt clt a b = true ∧ equals teq ceq a b = false ∧
      less tlt clt b a = false) ∨
    (less tlt clt a b = false ∧ equals teq ceq a b = true ∧
      less tlt clt b a = false) ∨
    (less tlt clt a b = false ∧ equals teq ceq a b = false ∧
      less tlt clt b a = true) := by
  have hne : ∀ (x y : T), tlt x y = true → teq x y = false := by
    intro x y hxy
    cases hq : teq x y with
    | false => rfl
    | true =>
      have := (hTe x y).1 hq
      subst this
      rw [hT.irrefl] at hxy
      cases hxy
  have hneC : ∀ (x y : C), clt x y = true → ceq x y = false := by
    intro x y hxy
    cases hq : ceq x y with
    | false => rfl
    | true =>
      have := (hCe x y).1 hq
      subst this
      rw [hC.irrefl] at hxy
      cases hxy
  obtain ⟨ta, ca⟩ := a
  obtain ⟨tb, cb⟩ := b
  simp only [less, equals]
  rcases hT.total ta tb with h | h | h
  · left
    simp [h, hne _ _ h]
    exact hT.asymm _ _ h
  · subst h
    have htt : teq ta ta = true := (hTe ta ta).2 rfl
    rcases hC.total ca cb with hc | hc | hc
    · left
      simp [hT.irrefl, hc, hneC _ _ hc, hC.asymm _ _ hc]
    · subst hc
      right; left
      simp [hT.irrefl, hC.irrefl, htt, (hCe ca ca).2 rfl]
    · right; right
      have hq : ceq ca cb = false := by
        cases hq : ceq ca cb with
        | false => rfl
        | true =>
          have := (hCe _ _).1 hq
          subst this
          rw [hC.irrefl] at hc
          cases hc
      simp [hT.irrefl, hc, hq, hC.asymm _ _ hc]
  · right; right
    have hq : teq ta tb = false := by
      cases hq : teq ta tb with
      | false => rfl
      | true =>
        have := (hTe _ _).1 hq
        subst this
        rw [hT.irrefl] at h
        cases h
    simp [h, hq, hT.asymm _ _ h]

/-- Instance of C4 on integral attributes: (3,1) against (3,4). -/
theorem trichotomy_witness :
    IsStrictTotal natLt ∧ EqMatches natEq ∧
    ((less natLt natLt (⟨3, 1⟩ : ErrorEvent Nat Nat) ⟨3, 4⟩ = true ∧
        equals natEq natEq (⟨3, 1⟩ : ErrorEvent Nat Nat) ⟨3, 4⟩ = false ∧
        less natLt natLt (⟨3, 4⟩ : ErrorEvent Nat Nat) ⟨3, 1⟩ = false) ∨
      (less natLt natLt (⟨3, 1⟩ : ErrorEvent Nat Nat) ⟨3, 4⟩ = false ∧
        equals natEq natEq (⟨3, 1⟩ : ErrorEvent Nat Nat) ⟨3, 4⟩ = true ∧
        less natLt natLt (⟨3, 4⟩ : ErrorEvent Nat Nat) ⟨3, 1⟩ = false) ∨
      (less natLt natLt (⟨3, 1⟩ : ErrorEvent Nat Nat) ⟨3, 4⟩ = false ∧
        equals natEq natEq (⟨3, 1⟩ : ErrorEvent Nat Nat) ⟨3, 4⟩ = false ∧
        less natLt natLt (⟨3, 4⟩ : ErrorEvent Nat Nat) ⟨3, 1⟩ = true)) :=
  ⟨natLt_isStrictTotal, natEq_matches,
   trichotomy natEq natLt natEq natLt natLt_isStrictTotal natLt_isStrictTotal
     natEq_matches natEq_matches ⟨3, 1⟩ ⟨3, 4⟩⟩

/-- C5. Same type, contexts `c1 < c2`: `(t,c1).equals((t,c2))` is false,
`(t,c1).less((t,c2))` is true and `(t,c2).less((t,c1))` is false. -/
theorem same_type_ordered_by_context (teq tlt : T → T → Bool)
    (ceq clt : C → C → Bool) (hT : IsStrictWeak tlt) (hC : IsStrictWeak clt)
    (hCe : EqMatches ceq) (t : T) (c1 c2 : C) (h : clt c1 c2 = true) :
    equals teq ceq ⟨t, c1⟩ ⟨t, c2⟩ = false ∧
    less tlt clt ⟨t, c1⟩ ⟨t, c2⟩ = true ∧
    less tlt clt ⟨t, c2⟩ ⟨t, c1⟩ = false := by
  have hq : ceq c1 c2 = false := by
    cases hq : ceq c1 c2 with
    | false => rfl
    | true =>
      have := (hCe _ _).1 hq
      subst this
      rw [hC.irrefl] at h
      cases h
  simp [equals, less, hq, h, hT.irrefl, hC.asymm _ _ h]

/-- Instance of C5 on integral attributes: type 4, contexts 2 < 6. -/
theorem same_type_ordered_by_context_witness :
    natLt 2 6 = true ∧
    equals natEq natEq (⟨4, 2⟩ : ErrorEvent Nat Nat) ⟨4, 6⟩ = false ∧
    less natLt natLt (⟨4, 2⟩ : ErrorEvent Nat Nat) ⟨4, 6⟩ = true ∧
    less natLt natLt (⟨4, 6⟩ : ErrorEvent Nat Nat) ⟨4, 2⟩ = false :=
  ⟨by decide,
   same_type_ordered_by_context natEq natLt natEq natLt natLt_isStrictWeak
     natLt_isStrictWeak natEq_matches 4 2 6 (by decide)⟩

/-- C6. Types `t1 < t2`: whatever the two contexts are,
`(t1,c).less((t2,c2))` is true and `(t2,c2).less((t1,c))` is false. -/
theorem different_type_ordered_by_type (tlt : T → T → Bool)
    (clt : C → C → Bool) (hT : IsStrictWeak tlt) (t1 t2 : T)
    (h : tlt t1 t2 = true) (c c2 : C) :
    less tlt clt ⟨t1, c⟩ ⟨t2, c2⟩ = true ∧
    less tlt clt ⟨t2, c2⟩ ⟨t1, c⟩ = false := by
  simp [less, h, hT.asymm _ _ h]

/-- Instance of C6 on integral attributes: types 1 < 2 with contexts 9 and 0,
the contexts ordered against the types. -/
theorem different_type_ordered_by_type_witness :
    natLt 1 2 = true ∧
    less natLt natLt (⟨1, 9⟩ : ErrorEvent Nat Nat) ⟨2, 0⟩ = true ∧
    less natLt natLt (⟨2, 0⟩ : ErrorEvent Nat Nat) ⟨1, 9⟩ = false :=
  ⟨by decide,
   different_type_ordered_by_type natLt natLt natLt_isStrictWeak 1 2
     (by decide) 9 0⟩

end ErrorEvent

/-! ## Facts about byte sequences -/

theorem bytesEqual_iff_eq (a b : List Byte) : bytesEqual a b = true ↔ a = b := by
  induction a generalizing b with
  | nil => cases b <;> simp [bytesEqual]
  | cons x xs ih =>
    cases b with
    | nil => simp [bytesEqual]
    | cons y ys => simp [bytesEqual, ih]

theorem readBytes_length_self (data : List Byte) :
    readBytes data data.length = data := by
  simp [readBytes]

theorem runAppends_d_data (self : EncryptionSecret) (calls : List AppendCall) :
    (runAppends self calls).d_data = self.d_data ++ appendedBytes calls := by
  induction calls generalizing self with
  | nil => simp [runAppends, appendedBytes]
  | cons call calls ih =>
    have hrun : runAppends self (call :: calls) =
        runAppends (AppendCall.run self call) calls := rfl
    rw [hrun, ih]
    cases call <;>
      simp [AppendCall.run, AppendCall.bytes, appendedBytes,
        EncryptionSecret.appendInt8, EncryptionSecret.appendUint8,
        EncryptionSecret.append]

/-! ## Properties of EncryptionSecret -/

/-- C7. Hashing a secret is consistent with equality: `hashAppend` calls the
algorithm once, on the region `(data(), size())`, which holds exactly the
bytes of the secret; hence secrets that are `equals` leave the algorithm in the
same state. -/
theorem hashAppend_equals {H : Type} (algorithm : H → List Byte → Nat → H)
    (state : H) (a b : EncryptionSecret) (h : a.equals b = true) :
    hashAppend algorithm state a = algorithm state a.d_data a.d_data.length ∧
    readBytes a.data a.size = a.d_data ∧
    hashAppend algorithm state a = hashAppend algorithm state b := by
  have hab : a.d_data = b.d_data := (bytesEqual_iff_eq _ _).1 h
  refine ⟨rfl, readBytes_length_self _, ?_⟩
  simp [hashAppend, EncryptionSecret.data, EncryptionSecret.size, hab]

/-- Instance of C7: two secrets holding the bytes 1, 2 under `foldHash`. -/
theorem hashAppend_equals_witness :
    EncryptionSecret.equals ⟨[1, 2]⟩ ⟨[1, 2]⟩ = true ∧
    hashAppend foldHash 7 ⟨[1, 2]⟩ = foldHash 7 [1, 2] 2 ∧
    readBytes (EncryptionSecret.data ⟨[1, 2]⟩) (EncryptionSecret.size ⟨[1, 2]⟩)
      = [1, 2] ∧
    hashAppend foldHash 7 ⟨[1, 2]⟩ = hashAppend foldHash 7 ⟨[1, 2]⟩ :=
  ⟨by decide, hashAppend_equals foldHash 7 ⟨[1, 2]⟩ ⟨[1, 2]⟩ (by decide)⟩

namespace EncryptionSecret

/-- C8. `copy` truncates silently and reports the count: for a destination
region of at least `capacity` bytes it returns `min(size(), capacity)`, the
first that many bytes of the destination are the first that many bytes of the
secret, every other destination byte is untouched, and the secret is
unchanged. -/
theorem copy_truncates (s : EncryptionSecret) (destination : List Byte)
    (capacity : Nat) (hcap : capacity ≤ destination.length) :
    (s.copy destination capacity).count = min s.size capacity ∧
    (∀ i : Nat, i < min s.size capacity →
      (s.copy destination capacity).destination[i]? = s.d_data[i]?) ∧
    (∀ i : Nat, min s.size capacity ≤ i →
      (s.copy destination capacity).destination[i]? = destination[i]?) ∧
    (s.copy destination capacity).destination.length = destination.length ∧
    (s.copy destination capacity).self = s ∧
    (s.copy destination capacity).self.size = s.size := by
  have hlen : (s.d_data.take (min s.size capacity)).length = min s.size capacity := by
    simp [size]
  refine ⟨rfl, ?_, ?_, ?_, rfl, rfl⟩
  · intro i hi
    simp only [copy, writeBytes]
    rw [List.getElem?_append_left (by rw [hlen]; exact hi)]
    rw [List.getElem?_take_of_lt hi]
  · intro i hi
    simp only [copy, writeBytes]
    rw [List.getElem?_append_right (by rw [hlen]; exact hi)]
    rw [hlen, List.getElem?_drop]
    congr 1
    omega
  · simp only [copy, writeBytes, List.length_append, List.length_drop, hlen]
    omega

/-- Instance of C8: a 5-byte secret copied into 4 bytes with capacity 3. -/
theorem copy_truncates_witness :
    3 ≤ [(9 : Byte), 9, 9, 9].length ∧
    ((mk [1, 2, 3, 4, 5]).copy [9, 9, 9, 9] 3).count
      = min (mk [1, 2, 3, 4, 5]).size 3 ∧
    (∀ i : Nat, i < min (mk [1, 2, 3, 4, 5]).size 3 →
      ((mk [1, 2, 3, 4, 5]).copy [9, 9, 9, 9] 3).destination[i]?
        = (mk [1, 2, 3, 4, 5]).d_data[i]?) ∧
    (∀ i : Nat, min (mk [1, 2, 3, 4, 5]).size 3 ≤ i →
      ((mk [1, 2, 3, 4, 5]).copy [9, 9, 9, 9] 3).destination[i]?
        = [(9 : Byte), 9, 9, 9][i]?) ∧
    ((mk [1, 2, 3, 4, 5]).copy [9, 9, 9, 9] 3).destination.length
      = [(9 : Byte), 9, 9, 9].length ∧
    ((mk [1, 2, 3, 4, 5]).copy [9, 9, 9, 9] 3).self = mk [1, 2, 3, 4, 5] ∧
    ((mk [1, 2, 3, 4, 5]).copy [9, 9, 9, 9] 3).self.size
      = (mk [1, 2, 3, 4, 5]).size :=
  ⟨by decide, copy_truncates (mk [1, 2, 3, 4, 5]) [9, 9, 9, 9] 3 (by decide)⟩

/-- C9. Append then copy is a round trip: after any sequence of calls of
`append` on an empty secret the content is the concatenation of the appended
bytes in call order, `size()` is their number, and `copy(dst, size())` into a
region of `size()` bytes returns `size()` and leaves `dst` equal to that
concatenation. -/
theorem append_copy_roundtrip (calls : List AppendCall)
    (dst : List Byte) (hdst : dst.length = (runAppends new calls).size) :
    (runAppends new calls).d_data = appendedBytes calls ∧
    (runAppends new calls).size = (appendedBytes calls).length ∧
    ((runAppends new calls).copy dst (runAppends new calls).size).count
      = (runAppends new calls).size ∧
    ((runAppends new calls).copy dst (runAppends new calls).size).destination
      = appendedBytes calls := by
  have hdata : (runAppends new calls).d_data = appendedBytes calls := by
    rw [runAppends_d_data]
    simp [new]
  have hsize : (runAppends new calls).size = (appendedBytes calls).length := by
    simp [size, hdata]
  refine ⟨hdata, hsize, ?_, ?_⟩
  · simp [copy]
  · rw [hsize] at hdst
    simp [copy, writeBytes, size, hdata, hdst]

/-- Instance of C9: bytes 1, 2, 3 appended one by one, then the block [4, 5];
the size is 5 and a copy into 5 bytes yields [1, 2, 3, 4, 5]. -/
theorem append_copy_roundtrip_witness :
    [(0 : Byte), 0, 0, 0, 0].length
      = (runAppends new [.uint8 1, .uint8 2, .uint8 3, .block [4, 5] 2]).size ∧
    (runAppends new [.uint8 1, .uint8 2, .uint8 3, .block [4, 5] 2]).size = 5 ∧
    ((runAppends new [.uint8 1, .uint8 2, .uint8 3, .block [4, 5] 2]).copy
      [0, 0, 0, 0, 0] 5).count = 5 ∧
    ((runAppends new [.uint8 1, .uint8 2, .uint8 3, .block [4, 5] 2]).copy
      [0, 0, 0, 0, 0] 5).destination = [1, 2, 3, 4, 5] :=
  ⟨by decide,
   (append_copy_roundtrip [.uint8 1, .uint8 2, .uint8 3, .block [4, 5] 2]
     [0, 0, 0, 0, 0] (by decide)).2.1,
   (append_copy_roundtrip [.uint8 1, .uint8 2, .uint8 3, .block [4, 5] 2]
     [0, 0, 0, 0, 0] (by decide)).2.2.1,
   (append_copy_roundtrip [.uint8 1, .uint8 2, .uint8 3, .block [4, 5] 2]
     [0, 0, 0, 0, 0] (by decide)).2.2.2⟩

/-- C10. `equals` is byte-exact equality: the secret holding `a` equals the
secret holding `b` exactly when `a` and `b` have the same length and the same
byte at every position. -/
theorem equals_iff_same_bytes (a b : List Byte) :
    equals ⟨a⟩ ⟨b⟩ = true ↔
      a.length = b.length ∧ ∀ i : Nat, i < a.length → a[i]? = b[i]? := by
  unfold equals
  rw [bytesEqual_iff_eq]
  constructor
  · intro h
    subst h
    exact ⟨rfl, fun _ _ => rfl⟩
  · intro ⟨hlen, h⟩
    apply List.ext_getElem?
    intro i
    by_cases hi : i < a.length
    · exact h i hi
    · have ha : a.length ≤ i := Nat.le_of_not_lt hi
      have hb : b.length ≤ i := hlen ▸ ha
      rw [List.getElem?_eq_none ha, List.getElem?_eq_none hb]

end EncryptionSecret

/-! ## Facts about the lexicographic comparison of byte sequences -/

theorem bytesLess_cons_lt {x y : Byte} (xs ys : List Byte) (h : x < y) :
    bytesLess (x :: xs) (y :: ys) = true := by
  simp [bytesLess, h]

theorem bytesLess_cons_gt {x y : Byte} (xs ys : List Byte) (h : y < x) :
    bytesLess (x :: xs) (y :: ys) = false := by
  simp [bytesLess, h, not_lt_of_gt h]

theorem bytesLess_cons_self (x : Byte) (xs ys : List Byte) :
    bytesLess (x :: xs) (x :: ys) = bytesLess xs ys := by
  simp [bytesLess]

theorem bytesLess_iff (a b : List Byte) :
    bytesLess a b = true ↔
      (∃ (i : Nat) (x y : Byte),
        a.take i = b.take i ∧ a[i]? = some x ∧ b[i]? = some y ∧ x < y) ∨
      (a.length < b.length ∧ b.take a.length = a) := by
  induction a generalizing b with
  | nil =>
    cases b with
    | nil => simp [bytesLess]
    | cons y ys => simp [bytesLess]
  | cons x xs ih =>
    cases b with
    | nil => simp [bytesLess]
    | cons y ys =>
      rcases lt_trichotomy x y with hxy | hxy | hxy
      · rw [bytesLess_cons_lt xs ys hxy]
        simp only [true_iff]
        exact Or.inl ⟨0, x, y, by simp, by simp, by simp, hxy⟩
      · subst hxy
        rw [bytesLess_cons_self, ih ys]
        constructor
        · rintro (⟨i, u, v, ht, ha, hb, huv⟩ | ⟨hl, ht⟩)
          · exact Or.inl ⟨i + 1, u, v, by simp [ht], by simpa using ha,
              by simpa using hb, huv⟩
          · exact Or.inr ⟨by simpa using hl, by simp [ht]⟩
        · rintro (⟨i, u, v, ht, ha, hb, huv⟩ | ⟨hl, ht⟩)
          · cases i with
            | zero =>
              simp only [List.getElem?_cons_zero, Option.some.injEq] at ha hb
              subst ha
              subst hb
              exact absurd huv (lt_irrefl _)
            | succ j =>
              exact Or.inl ⟨j, u, v, by simpa using ht, by simpa using ha,
                by simpa using hb, huv⟩
          · exact Or.inr ⟨by simpa using hl, by simpa using ht⟩
      · rw [bytesLess_cons_gt xs ys hxy]
        simp only [Bool.false_eq_true, false_iff, not_or, not_exists, not_and]
        constructor
        · intro i u v ht ha hb
          cases i with
          | zero =>
            simp only [List.getElem?_cons_zero, Option.some.injEq] at ha hb
            subst ha
            subst hb
            exact not_lt_of_gt hxy
          | succ j =>
            simp only [List.take_succ_cons, List.cons.injEq] at ht
            exact absurd ht.1 (ne_of_gt hxy)
        · intro _ ht
          simp only [List.length_cons, List.take_succ_cons, List.cons.injEq] at ht
          exact absurd ht.1.symm (ne_of_gt hxy)

theorem bytesLess_irrefl (a : List Byte) : bytesLess a a = false := by
  induction a with
  | nil => rfl
  | cons x xs ih => rw [bytesLess_cons_self, ih]

theorem bytesLess_trans (a b c : List Byte) (hab : bytesLess a b = true)
    (hbc : bytesLess b c = true) : bytesLess a c = true := by
  induction a generalizing b c with
  | nil =>
    cases b with
    | nil => simp [bytesLess] at hab
    | cons y ys =>
      cases c with
      | nil => simp [bytesLess] at hbc
      | cons z zs => simp [bytesLess]
  | cons x xs ih =>
    cases b with
    | nil => simp [bytesLess] at hab
    | cons y ys =>
      cases c with
      | nil => simp [bytesLess] at hbc
      | cons z zs =>
        rcases lt_trichotomy x y with hxy | hxy | hxy
        · rcases lt_trichotomy y z with hyz | hyz | hyz
          · exact bytesLess_cons_lt xs zs (lt_trans hxy hyz)
          · subst hyz
            exact bytesLess_cons_lt xs zs hxy
          · rw [bytesLess_cons_gt ys zs hyz] at hbc
            cases hbc
        · subst hxy
          rcases lt_trichotomy x z with hxz | hxz | hxz
          · exact bytesLess_cons_lt xs zs hxz
          · subst hxz
            rw [bytesLess_cons_self] at hab hbc ⊢
            exact ih ys zs hab hbc
          · rw [bytesLess_cons_gt ys zs hxz] at hbc
            cases hbc
        · rw [bytesLess_cons_gt xs ys hxy] at hab
          cases hab

theorem bytesLess_asymm (a b : List Byte) (hab : bytesLess a b = true) :
    bytesLess b a = false := by
  cases hba : bytesLess b a with
  | false => rfl
  | true =>
    have haa := bytesLess_trans a b a hab hba
    rw [bytesLess_irrefl] at haa
    cases haa

theorem streamAlgorithm_append {H : Type} (step : H → Byte → H) (state : H)
    (a b : List Byte) :
    streamAlgorithm step (streamAlgorithm step state a a.length) b b.length =
      streamAlgorithm step state (a ++ b) (a ++ b).length := by
  unfold streamAlgorithm
  rw [readBytes_length_self, readBytes_length_self, readBytes_length_self,
    List.foldl_append]

theorem recordBytes_length_self (fed data : List Byte) :
    recordBytes fed data data.length = fed ++ data := by
  unfold recordBytes streamAlgorithm
  rw [readBytes_length_self]
  induction data generalizing fed with
  | nil => simp
  | cons x xs ih => simp [List.foldl_cons, ih]

/-! ## Further properties of EncryptionSecret -/

namespace EncryptionSecret

/-- C11. `EncryptionSecret::less` is the lexicographic order on byte
sequences: `a.less(b)` holds exactly when either the two agree on their first
`i` bytes and byte `i` of `a` is smaller than byte `i` of `b`, or `a` is
shorter than `b` and `b` starts with all of `a`. -/
theorem less_iff_lexicographic (a b : EncryptionSecret) :
    a.less b = true ↔
      (∃ (i : Nat) (x y : Byte),
        a.d_data.take i = b.d_data.take i ∧
        a.d_data[i]? = some x ∧ b.d_data[i]? = some y ∧ x < y) ∨
      (a.size < b.size ∧ b.d_data.take a.size = a.d_data) := by
  unfold less size
  exact bytesLess_iff a.d_data b.d_data

/-- C12. `EncryptionSecret::less` is a strict weak order on secrets: it is
irreflexive, asymmetric and transitive. -/
theorem less_strict_weak_order (a b c : EncryptionSecret) :
    a.less a = false ∧
    (a.less b = true → b.less a = false) ∧
    (a.less b = true → b.less c = true → a.less c = true) :=
  ⟨bytesLess_irrefl a.d_data, bytesLess_asymm a.d_data b.d_data,
   bytesLess_trans a.d_data b.d_data c.d_data⟩

/-- C13. `EncryptionSecret::reset` returns every secret to the
default-constructed value: afterwards `empty()` is true, `size()` is 0, and
the secret equals a default-constructed one. -/
theorem reset_is_default (s : EncryptionSecret) :
    s.reset.empty = true ∧ s.reset.size = 0 ∧
    s.reset.equals new = true ∧ s.reset = new :=
  ⟨rfl, rfl, rfl, rfl⟩

/-- C16. Single-byte append agrees with block append: `append(v)` leaves the
same secret as appending the one-byte block `[v]`; the size grows by one, the
previous bytes keep value and position, and the new last byte is `v`. For the
signed overload the appended byte is the unsigned byte `v mod 256`. -/
theorem append_byte_agrees_with_block (s : EncryptionSecret) (v : Byte)
    (w : Int) :
    s.appendUint8 v = s.append [v] 1 ∧
    (s.appendUint8 v).size = s.size + 1 ∧
    (∀ i : Nat, i < s.size → (s.appendUint8 v).d_data[i]? = s.d_data[i]?) ∧
    (s.appendUint8 v).d_data[s.size]? = some v ∧
    s.appendInt8 w = s.append [toUint8 w] 1 ∧
    s.appendInt8 w = s.appendUint8 (toUint8 w) ∧
    ((toUint8 w).val : Int) = w % 256 := by
  refine ⟨rfl, ?_, ?_, ?_, rfl, rfl, ?_⟩
  · simp [appendUint8, size]
  · intro i hi
    simp only [appendUint8]
    exact List.getElem?_append_left hi
  · simp [appendUint8, size]
  · simp only [toUint8]
    omega

end EncryptionSecret

/-- C18. `hashAppend` is not length-delimited: for a hash algorithm that
consumes a byte stream, hashing `a` and then `b` feeds the same bytes, and
leaves the same state, as hashing once the secret holding `a ++ b`; so the
pairs `(p, q ++ r)` and `(p ++ q, r)`, such as `([1], [2,3])` and
`([1,2], [3])`, give the same state, and an empty secret contributes no
byte. -/
theorem hashAppend_concatenates {H : Type} (step : H → Byte → H) (state : H)
    (fed : List Byte) (a b : EncryptionSecret) (p q r : List Byte) :
    hashAppend (streamAlgorithm step)
        (hashAppend (streamAlgorithm step) state a) b
      = hashAppend (streamAlgorithm step) state ⟨a.d_data ++ b.d_data⟩ ∧
    hashAppend recordBytes (hashAppend recordBytes fed a) b
      = fed ++ (a.d_data ++ b.d_data) ∧
    hashAppend recordBytes fed ⟨a.d_data ++ b.d_data⟩
      = fed ++ (a.d_data ++ b.d_data) ∧
    hashAppend (streamAlgorithm step)
        (hashAppend (streamAlgorithm step) state ⟨p⟩) ⟨q ++ r⟩
      = hashAppend (streamAlgorithm step)
        (hashAppend (streamAlgorithm step) state ⟨p ++ q⟩) ⟨r⟩ ∧
    hashAppend (streamAlgorithm step)
        (hashAppend (streamAlgorithm step) state ⟨[1]⟩) ⟨[2, 3]⟩
      = hashAppend (streamAlgorithm step)
        (hashAppend (streamAlgorithm step) state ⟨[1, 2]⟩) ⟨[3]⟩ ∧
    hashAppend (streamAlgorithm step) state ⟨[]⟩ = state ∧
    hashAppend recordBytes fed ⟨[]⟩ = fed := by
  refine ⟨?_, ?_, ?_, ?_, ?_, ?_, ?_⟩
  · exact streamAlgorithm_append step state a.d_data b.d_data
  · simp only [hashAppend, EncryptionSecret.data, EncryptionSecret.size,
      recordBytes_length_self, List.append_assoc]
  · simp only [hashAppend, EncryptionSecret.data, EncryptionSecret.size,
      recordBytes_length_self]
  · simp only [hashAppend, EncryptionSecret.data, EncryptionSecret.size]
    rw [streamAlgorithm_append, streamAlgorithm_append, List.append_assoc]
  · rfl
  · rfl
  · simp only [hashAppend, EncryptionSecret.data, EncryptionSecret.size,
      recordBytes_length_self, List.append_nil]

/-! ## Facts about streams and printing -/

theorem OStream.insert_insert (stream : OStream) (a b : List Char) :
    (stream.insert a).insert b = stream.insert (a ++ b) := by
  obtain ⟨w, bad, fail, eof⟩ := stream
  cases bad <;> cases fail <;> cases eof <;>
    simp [OStream.insert, OStream.failed]

theorem textWritten_insert (stream : OStream) (text : List Char)
    (h : stream.failed = false) :
    textWritten stream (stream.insert text) = text := by
  simp [textWritten, OStream.insert, h]

theorem ErrorEvent.print_eq_insert {T C : Type} (printer : Printer)
    (renderType : T → Int → Int → List Char)
    (renderContext : C → Int → Int → List Char) (e : ErrorEvent T C)
    (stream : OStream) (level spl : Int) :
    ErrorEvent.print printer renderType renderContext e stream level spl =
      stream.insert
        (printer.startText level spl ++
          (printer.attributeText level spl "type" (renderType e.d_type) ++
            (printer.attributeText level spl "context"
                (renderContext e.d_context) ++
              printer.endText level spl))) := by
  simp only [ErrorEvent.print, Printer.start, Printer.printAttribute,
    Printer.finish, OStream.insert_insert, List.append_assoc]

theorem endsInOneNewline_append (front : List Char) (c : Char)
    (h : c ≠ '\n') : endsInOneNewline (front ++ [c, '\n']) = true := by
  simp [endsInOneNewline, h]

theorem not_mem_spaces (n : Int) : '\n' ∉ spaces n := by
  intro h
  have := (List.mem_replicate.1 h).2
  exact absurd this (by decide)

theorem blockPrinter_honoursLineBreaks : blockPrinter.HonoursLineBreaks where
  start_single := by
    intro level spl hspl
    have h0 : ¬ (0 ≤ spl) := not_le.2 hspl
    have hs := not_mem_spaces (|spl| * level)
    by_cases hl : level < 0 <;> simp [blockPrinter, h0, hl, hs]
  attribute_single := by
    intro level spl name value hspl hname hvalue
    have hv := hvalue (-(|level| + 1))
    simp only [blockPrinter, hspl, if_true, List.mem_append, not_or]
    refine ⟨⟨⟨by decide, hname⟩, by decide⟩, hv⟩
  end_single := by
    intro level spl hspl
    have h0 : ¬ (0 ≤ spl) := not_le.2 hspl
    simp only [blockPrinter, h0, if_false]
    decide
  end_multi := by
    intro level spl hspl
    exact ⟨spaces (spl * |level|), ']', by decide, by simp [blockPrinter, hspl]⟩

/-! ## Properties of ErrorEvent::print -/

namespace ErrorEvent

variable {T C : Type}

/-- C14. `ErrorEvent::print` honours the line-break contract: on a stream that
takes output and with a printer that honours it, a negative `spacesPerLevel`
gives a text without any newline (when the renderings of type and context have
none), and a non-negative one gives a text that ends in exactly one
newline. -/
theorem print_line_breaks (printer : Printer)
    (hprinter : printer.HonoursLineBreaks)
    (renderType : T → Int → Int → List Char)
    (renderContext : C → Int → Int → List Char) (e : ErrorEvent T C)
    (stream : OStream) (hgood : stream.failed = false) (level spl : Int) :
    (spl < 0 →
      (∀ l : Int, '\n' ∉ renderType e.d_type l spl) →
      (∀ l : Int, '\n' ∉ renderContext e.d_context l spl) →
      '\n' ∉ textWritten stream
        (print printer renderType renderContext e stream level spl)) ∧
    (0 ≤ spl →
      endsInOneNewline (textWritten stream
        (print printer renderType renderContext e stream level spl))
        = true) := by
  rw [print_eq_insert, textWritten_insert _ _ hgood]
  constructor
  · intro hspl htype hcontext
    simp only [List.mem_append, not_or]
    exact ⟨hprinter.start_single level spl hspl,
      hprinter.attribute_single level spl "type" _ hspl (by decide) htype,
      hprinter.attribute_single level spl "context" _ hspl (by decide)
        hcontext,
      hprinter.end_single level spl hspl⟩
  · intro hspl
    obtain ⟨body, c, hc, hend⟩ := hprinter.end_multi level spl hspl
    rw [hend, ← List.append_assoc, ← List.append_assoc, ← List.append_assoc]
    exact endsInOneNewline_append _ c hc

/-- Instance of C14: the event (1, 42) printed by `blockPrinter` at level 0,
once with `spacesPerLevel` -1 and once with 2. -/
theorem print_line_breaks_witness :
    blockPrinter.HonoursLineBreaks ∧
    (OStream.mk [] false false false).failed = false ∧
    '\n' ∉ textWritten ⟨[], false, false, false⟩
      (print blockPrinter renderNat renderNat (⟨1, 42⟩ : ErrorEvent Nat Nat)
        ⟨[], false, false, false⟩ 0 (-1)) ∧
    endsInOneNewline (textWritten ⟨[], false, false, false⟩
      (print blockPrinter renderNat renderNat (⟨1, 42⟩ : ErrorEvent Nat Nat)
        ⟨[], false, false, false⟩ 0 2)) = true :=
  ⟨blockPrinter_honoursLineBreaks, rfl,
   (print_line_breaks blockPrinter blockPrinter_honoursLineBreaks renderNat
      renderNat ⟨1, 42⟩ ⟨[], false, false, false⟩ rfl 0 (-1)).1 (by decide)
      (fun _ => by simp only [renderNat]; decide)
      (fun _ => by simp only [renderNat]; decide),
   (print_line_breaks blockPrinter blockPrinter_honoursLineBreaks renderNat
      renderNat ⟨1, 42⟩ ⟨[], false, false, false⟩ rfl 0 2).2 (by decide)⟩

/-- C17. `ErrorEvent::print` shows both attributes by name, once each and in a
fixed order: on a stream that takes output, the text written is the opening of
the printer, the attribute named "type" with the rendering of the type, the
attribute named "context" with the rendering of the context, and the closing
of the printer, and nothing else. -/
theorem print_text (printer : Printer)
    (renderType : T → Int → Int → List Char)
    (renderContext : C → Int → Int → List Char) (e : ErrorEvent T C)
    (stream : OStream) (hgood : stream.failed = false) (level spl : Int) :
    textWritten stream
        (print printer renderType renderContext e stream level spl)
      = printer.startText level spl ++
        printer.attributeText level spl "type" (renderType e.d_type) ++
        printer.attributeText level spl "context" (renderContext e.d_context) ++
        printer.endText level spl ∧
    (print printer renderType renderContext e stream level spl).written
      = stream.written ++
        (printer.startText level spl ++
        printer.attributeText level spl "type" (renderType e.d_type) ++
        printer.attributeText level spl "context" (renderContext e.d_context) ++
        printer.endText level spl) := by
  rw [print_eq_insert, textWritten_insert _ _ hgood]
  simp [OStream.insert, hgood]

/-- Instance of C17: the event (1, 42) printed by `blockPrinter` on one
line. -/
theorem print_text_witness :
    (OStream.mk [] false false false).failed = false ∧
    textWritten ⟨[], false, false, false⟩
        (print blockPrinter renderNat renderNat (⟨1, 42⟩ : ErrorEvent Nat Nat)
          ⟨[], false, false, false⟩ 0 (-1))
      = blockPrinter.startText 0 (-1) ++
        blockPrinter.attributeText 0 (-1) "type" (renderNat 1) ++
        blockPrinter.attributeText 0 (-1) "context" (renderNat 42) ++
        blockPrinter.endText 0 (-1) ∧
    textWritten ⟨[], false, false, false⟩
        (print blockPrinter renderNat renderNat (⟨1, 42⟩ : ErrorEvent Nat Nat)
          ⟨[], false, false, false⟩ 0 (-1))
      = "[ type = 1 context = 42 ]".toList :=
  ⟨rfl,
   (print_text blockPrinter renderNat renderNat ⟨1, 42⟩ ⟨[], false, false, false⟩ rfl 0
     (-1)).1,
   by decide⟩

end ErrorEvent

end Ntca
